import Mathlib

/-!
Verification of the text-overlay rendering engine of `app/image_generator.py`
(function `overlay_text_on_image` and its helpers).  Python strings are
embedded as lists of characters, Pillow images as a structure carrying mode,
dimensions and a pixel map, and the Pillow text backend as an abstract
measurement/mask pair.  Python's float products `width * 0.82`,
`font_size * 1.2`, `font_size * 0.6`, `font_size * 0.2`, `width * 0.06`,
`padding_y * 0.3` and `math.ceil(14 / m)` all truncate to the same integers
as exact rational arithmetic at these magnitudes (the doubles 0.82, 1.2, …
carry a relative error of about 1e-16, far too small to move any of these
products across an integer boundary), so they are modelled by exact integer
divisions; the theorems relate those divisions back to real floors and
ceilings.
-/

namespace QuoteGenerator

/-- A Python `str`, embedded as its list of characters. -/
abbrev Str := List Char

/-- Helper for `pySplitWs`: scans the text, accumulating the characters of
the word currently being read (in reverse).  Mirrors the semantics of
Python's `str.split()` with no separator: split on runs of whitespace and
never produce empty words. -/
def splitWsAux (acc : Str) : List Char → List Str
  | [] => if acc = [] then [] else [acc.reverse]
  | c :: cs =>
    if c.isWhitespace then
      if acc = [] then splitWsAux [] cs
      else acc.reverse :: splitWsAux [] cs
    else splitWsAux (c :: acc) cs

/-- Python's `text.split()` (no separator argument), used at
image_generator.py line 171: splits on whitespace runs, discarding empty
pieces. -/
def pySplitWs (s : Str) : List Str := splitWsAux [] s

/-- Python's `text.split("\n")` (image_generator.py line 188): splits at
every newline, keeping empty pieces, and yields `[""]` on the empty
string. -/
def splitOnNl : Str → List Str
  | [] => [[]]
  | c :: cs =>
    if c = '\n' then [] :: splitOnNl cs
    else
      match splitOnNl cs with
      | [] => [[c]]
      | p :: ps => (c :: p) :: ps

/-- Joining with single spaces, Python's `" ".join(lines)` (used to state
the re-wrap property of the wrapped lines). -/
def joinSpaces : List Str → Str
  | [] => []
  | [l] => l
  | l :: l' :: ls => l ++ ' ' :: joinSpaces (l' :: ls)

/-- The text backend attached to a loaded font.  `meas` models
`_text_size` (image_generator.py lines 154-166): Pillow's
`textbbox`/`textsize`/`getsize` chain always yields a nonnegative
(width, height) pair for the rendered string.  `mask` models the glyph
coverage used by `draw.text`. -/
structure Font where
  meas : Str → ℕ × ℕ
  mask : Str → ℤ → ℤ → Bool

/-- The last-resort size estimate of `_text_size`
(image_generator.py line 166): `(len(s) * 8, 12)`. -/
def crudeMeasure (s : Str) : ℕ × ℕ := (8 * s.length, 12)

/-- A font whose metrics are the crude estimate of line 166. -/
def crudeFont : Font := ⟨crudeMeasure, fun _ _ _ => false⟩

/-- The loop of `wrap_text_by_pixel` (image_generator.py lines 175-185):
greedily extend `current` with the next word while the measured width of
the candidate stays within `maxW`; otherwise close the line and start a
new one with that word.  The final `current` is always emitted. -/
def wrapLoop (fnt : Font) (maxW : ℕ) (current : Str) : List Str → List Str
  | [] => [current]
  | w :: ws =>
    let cand := current ++ ' ' :: w
    if (fnt.meas cand).1 ≤ maxW then wrapLoop fnt maxW cand ws
    else current :: wrapLoop fnt maxW w ws

/-- Model of `wrap_text_by_pixel` (image_generator.py lines 170-185): split the
paragraph into words; with no words return `[""]`, otherwise run the
greedy loop starting from the first word. -/
def wrap_text_by_pixel (fnt : Font) (maxW : ℕ) (text : Str) : List Str :=
  match pySplitWs text with
  | [] => [[]]
  | w :: ws => wrapLoop fnt maxW w ws

/-! ### Render parameters and block geometry -/

/-- Python's `int()` on an exact rational: truncation toward zero. -/
def pyInt (q : ℚ) : ℤ := if q < 0 then -⌊-q⌋ else ⌊q⌋

/-- Font size (image_generator.py line 107):
`max(18, int(width * text_scale))`. -/
def fontSize (width : ℕ) (text_scale : ℚ) : ℕ :=
  (max 18 (pyInt ((width : ℚ) * text_scale))).toNat

/-- Maximum text width (line 169): `int(width * 0.82)`.  The double 0.82
is below 82/100 by about 5e-17, never enough to move the product across an
integer, so the truncation equals `82 * width / 100`. -/
def maxTextWidth (width : ℕ) : ℕ := 82 * width / 100

/-- Inter-line gap while drawing (lines 228 and 260):
`int(font_size * 0.2)`. -/
def interLineGap (font_size : ℕ) : ℕ := 2 * font_size / 10

/-- Vertical margin added to the temporary text block (line 210):
`int(font_size * 1.2)`. -/
def textBlockMargin (font_size : ℕ) : ℕ := 12 * font_size / 10

/-- Lines 187-189: split the text into paragraphs at newlines and
concatenate the wrapped lines of every paragraph. -/
def computeLines (fnt : Font) (maxW : ℕ) (text : Str) : List Str :=
  ((splitOnNl text).map (wrap_text_by_pixel fnt maxW)).flatten

/-- Line 193: the measured height of every line. -/
def lineHeights (fnt : Font) (lines : List Str) : List ℕ :=
  lines.map fun l => (fnt.meas l).2

/-- Line 194: `sum(line_heights) + (len(lines) - 1) * 8`, computed over ℤ
as Python's subtraction would. -/
def totalTextHeight (heights : List ℕ) : ℤ :=
  (heights.sum : ℤ) + ((heights.length : ℤ) - 1) * 8

/-- Line 201: `line_heights[0] if line_heights else 0`. -/
def sampleH (heights : List ℕ) : ℕ := heights.headD 0

/-- Line 204: the legibility floor. -/
def MIN_PX : ℕ := 14

/-- Line 208: `max(1, math.ceil(MIN_PX / max(1, sample_h)))`.  The ceiling
of the float quotient equals the integer ceiling division at these
magnitudes. -/
def upscaleFactor (sample_h : ℕ) : ℕ :=
  max 1 ((MIN_PX + max 1 sample_h - 1) / max 1 sample_h)

/-- Line 210: `total_text_height + int(font_size * 1.2)`, the height of
the temporary text block. -/
def textBlockHeight (heights : List ℕ) (font_size : ℕ) : ℤ :=
  totalTextHeight heights + textBlockMargin font_size

/-- The two rendering paths of lines 201-243. -/
inductive RenderPlan
  | native
  | upscale (factor : ℕ)
deriving DecidableEq

/-- Lines 201-208: upscale exactly when the sampled height is below the
floor, with the computed factor. -/
def renderPlan (heights : List ℕ) : RenderPlan :=
  if sampleH heights < MIN_PX then
    RenderPlan.upscale (upscaleFactor (sampleH heights))
  else RenderPlan.native

/-- Lines 230-237: the block height used for vertical centering — the
upscaled block height (`text_block.height * factor`, line 231 and 234) on
the upscale path, the native total text height otherwise. -/
def positionedBlockHeight (heights : List ℕ) (font_size : ℕ) : ℤ :=
  match renderPlan heights with
  | RenderPlan.native => totalTextHeight heights
  | RenderPlan.upscale f => ((textBlockHeight heights font_size).toNat * f : ℕ)

/-- Lines 256-260: the y cursor after drawing the given lines starting at
`y`; each line advances the cursor by its measured height plus
`int(font_size * 0.2)`. -/
def drawCursorAfter (fnt : Font) (font_size : ℕ) (y : ℤ) : List Str → ℤ
  | [] => y
  | l :: ls =>
      drawCursorAfter fnt font_size
        (y + ((fnt.meas l).2 : ℤ) + interLineGap font_size) ls

/-! ### Pillow image model -/

/-- An RGBA pixel with 8-bit channels. -/
structure Pixel where
  r : ℕ
  g : ℕ
  b : ℕ
  a : ℕ

/-- The two Pillow modes appearing in `overlay_text_on_image`. -/
inductive Mode
  | RGB
  | RGBA
deriving DecidableEq

/-- A Pillow image: mode, dimensions, and pixel map.  An RGB image carries
alpha 255 in every pixel. -/
structure PILImage where
  mode : Mode
  width : ℕ
  height : ℕ
  px : ℕ → ℕ → Pixel

/-- Model of `Image.new(mode, (w, h), color)`. -/
def newImage (m : Mode) (w h : ℕ) (fill : Pixel) : PILImage :=
  ⟨m, w, h, fun _ _ => fill⟩

/-- Model of `.convert("RGBA")` (line 95): an RGB source gains a fully-opaque alpha
channel; an RGBA source is unchanged. -/
def convertRGBA (im : PILImage) : PILImage :=
  ⟨Mode.RGBA, im.width, im.height, fun x y =>
    if im.mode = Mode.RGB then { im.px x y with a := 255 } else im.px x y⟩

/-- Model of `.convert("RGB")` (line 262): drops the alpha channel; every pixel of
the result is fully opaque. -/
def convertRGB (im : PILImage) : PILImage :=
  ⟨Mode.RGB, im.width, im.height, fun x y => { im.px x y with a := 255 }⟩

/-- Model of `draw.rectangle([l, t, r, b], fill)` (lines 221 and 253): overwrites
the pixels inside the inclusive rectangle with the fill colour (Pillow's
draw primitives write the RGBA fill directly). -/
def rectangle (l t r b : ℤ) (fill : Pixel) (im : PILImage) : PILImage :=
  ⟨im.mode, im.width, im.height, fun x y =>
    if l ≤ (x : ℤ) ∧ (x : ℤ) ≤ r ∧ t ≤ (y : ℤ) ∧ (y : ℤ) ≤ b then fill
    else im.px x y⟩

/-- Model of `draw.text((x, y), line, font, fill)` (lines 227 and 259): writes the
fill colour wherever the font's glyph mask covers the canvas. -/
def drawText (fnt : Font) (s : Str) (tx ty : ℤ) (fill : Pixel)
    (im : PILImage) : PILImage :=
  ⟨im.mode, im.width, im.height, fun x y =>
    if fnt.mask s ((x : ℤ) - tx) ((y : ℤ) - ty) then fill else im.px x y⟩

/-- Source-over compositing of one pixel (models the per-pixel arithmetic
of `Image.alpha_composite`). -/
def overPx (bg fg : Pixel) : Pixel :=
  let a := fg.a + bg.a * (255 - fg.a) / 255
  if a = 0 then ⟨0, 0, 0, 0⟩
  else
    ⟨(fg.r * fg.a + bg.r * bg.a * (255 - fg.a) / 255) / a,
     (fg.g * fg.a + bg.g * bg.a * (255 - fg.a) / 255) / a,
     (fg.b * fg.a + bg.b * bg.a * (255 - fg.a) / 255) / a, a⟩

/-- Model of `Image.alpha_composite(base, txt)` (line 262): requires equal sizes and
yields an RGBA image of the base's dimensions with `txt` composited over
`base`. -/
def alphaComposite (bg fg : PILImage) : PILImage :=
  ⟨Mode.RGBA, bg.width, bg.height, fun x y => overPx (bg.px x y) (fg.px x y)⟩

/-- Model of `.resize((w, h), resample=Image.NEAREST)` (line 232): nearest-neighbour
sampling. -/
def resizeNearest (im : PILImage) (w h : ℕ) : PILImage :=
  ⟨im.mode, w, h, fun x y => im.px (x * im.width / w) (y * im.height / h)⟩

/-- Blending of one destination pixel with a source pixel under the
source's alpha (models Pillow's `paste` with an RGBA mask). -/
def blendPx (dst src : Pixel) : Pixel :=
  ⟨(dst.r * (255 - src.a) + src.r * src.a) / 255,
   (dst.g * (255 - src.a) + src.g * src.a) / 255,
   (dst.b * (255 - src.a) + src.b * src.a) / 255,
   (dst.a * (255 - src.a) + src.a * src.a) / 255⟩

/-- Model of `txt.paste(layer, (x, y), layer)` (line 243): blends the layer into the
destination over the pasted region (possibly negative offsets crop), and
keeps the destination's dimensions. -/
def paste (dst src : PILImage) (tx ty : ℤ) : PILImage :=
  ⟨dst.mode, dst.width, dst.height, fun x y =>
    if tx ≤ (x : ℤ) ∧ (x : ℤ) < tx + src.width ∧
        ty ≤ (y : ℤ) ∧ (y : ℤ) < ty + src.height then
      blendPx (dst.px x y) (src.px ((x : ℤ) - tx).toNat ((y : ℤ) - ty).toNat)
    else dst.px x y⟩

/-! ### Font resolution (image_generator.py lines 113-151) -/

/-- The host environment seen by font resolution: which files exist and
what `ImageFont.truetype` yields for a path or a bare font name (`none`
models a raised exception). -/
structure FontEnv where
  pathExists : String → Bool
  loadTruetypePath : String → ℕ → Option Font
  loadTruetypeName : String → ℕ → Option Font

/-- The ranked font file paths of lines 114-120. -/
def font_paths : List String :=
  ["/usr/share/fonts/truetype/dejavu/DejaVuSans-Bold.ttf",
   "/usr/share/fonts/truetype/liberation/LiberationSans-Bold.ttf",
   "/usr/share/fonts/truetype/dejavu/DejaVuSans.ttf",
   "/usr/share/fonts/truetype/freefont/FreeSans.ttf",
   "/usr/share/fonts/truetype/ubuntu/Ubuntu-B.ttf"]

/-- The ranked bare font names of lines 132-139. -/
def font_names : List String :=
  ["DejaVuSans-Bold.ttf", "DejaVuSans.ttf", "LiberationSans-Bold.ttf",
   "LiberationSans-Regular.ttf", "FreeSans.ttf", "Arial.ttf"]

/-- Model of `ImageFont.load_default()` (line 149): Pillow's built-in fixed-size
bitmap font, modelled with its small fixed glyph metrics. -/
def load_default : Font := ⟨fun s => (6 * s.length, 11), fun _ _ _ => false⟩

/-- Lines 121-127: walk the path list; a path is tried only if it exists,
and a load failure falls through to the next candidate. -/
def tryFontPaths (env : FontEnv) (size : ℕ) : List String → Option Font
  | [] => none
  | p :: ps =>
    if env.pathExists p then
      match env.loadTruetypePath p size with
      | some f => some f
      | none => tryFontPaths env size ps
    else tryFontPaths env size ps

/-- Lines 131-144: walk the name list; a load failure falls through. -/
def tryFontNames (env : FontEnv) (size : ℕ) : List String → Option Font
  | [] => none
  | n :: ns =>
    match env.loadTruetypeName n size with
    | some f => some f
    | none => tryFontNames env size ns

/-- Lines 113-151: paths first, then names, then the bitmap default. -/
def resolveFont (env : FontEnv) (size : ℕ) : Font :=
  match tryFontPaths env size font_paths with
  | some f => f
  | none =>
    match tryFontNames env size font_names with
    | some f => f
    | none => load_default

/-! ### The full overlay pipeline -/

/-- Line 211: the temporary transparent buffer of the upscale path, sized
to the base image width and the text-block height of line 210. -/
def textBlockBuffer (width : ℕ) (heights : List ℕ) (font_size : ℕ) : PILImage :=
  newImage Mode.RGBA width (textBlockHeight heights font_size).toNat ⟨0, 0, 0, 0⟩

/-- The drawing loops of lines 224-228 and 256-260: draw each line in
white, horizontally centered, advancing the y cursor by the line's
measured height plus `int(font_size * 0.2)`. -/
def drawLines (fnt : Font) (font_size : ℕ) : PILImage → ℤ → List Str → PILImage
  | im, _, [] => im
  | im, y, l :: ls =>
    let wh := fnt.meas l
    let x := Int.fdiv ((im.width : ℤ) - (wh.1 : ℤ)) 2
    drawLines fnt font_size (drawText fnt l x y ⟨255, 255, 255, 255⟩ im)
      (y + (wh.2 : ℤ) + (interLineGap font_size : ℤ)) ls

/-- Model of `overlay_text_on_image` (image_generator.py lines 95-266) on
an already-decoded base image: convert to RGBA, build the transparent text
layer, resolve the font, wrap and measure, render either natively or
through the upscaled text block, alpha-composite the layer over the base
and flatten to opaque RGB.  (The PNG encoding of lines 263-266 preserves
pixels and dimensions and is not modelled.) -/
def overlay_text_on_image (env : FontEnv) (image : PILImage) (text : Str)
    (text_scale : ℚ) : PILImage :=
  let base := convertRGBA image
  let width := base.width
  let height := base.height
  let txt := newImage Mode.RGBA width height ⟨255, 255, 255, 0⟩
  let font_size := fontSize width text_scale
  let font := resolveFont env font_size
  let lines := computeLines font (maxTextWidth width) text
  let line_heights := lineHeights font lines
  let y : ℤ :=
    Int.fdiv ((height : ℤ) - positionedBlockHeight line_heights font_size) 2
  let padding_x : ℤ := (6 * width / 100 : ℕ)
  let padding_y : ℤ := (6 * font_size / 10 : ℕ)
  let txt2 :=
    match renderPlan line_heights with
    | RenderPlan.upscale factor =>
      let text_block := textBlockBuffer width line_heights font_size
      let tb1 := rectangle padding_x 0 ((width : ℤ) - padding_x)
        (textBlockHeight line_heights font_size) ⟨0, 0, 0, 180⟩ text_block
      let y_local : ℤ := (3 * (6 * font_size / 10) / 10 : ℕ)
      let tb2 := drawLines font font_size tb1 y_local lines
      let upscale_layer :=
        resizeNearest tb2 (tb2.width * factor) (tb2.height * factor)
      let x_paste := Int.fdiv ((width : ℤ) - (upscale_layer.width : ℤ)) 2
      paste txt upscale_layer x_paste y
    | RenderPlan.native =>
      let t1 := rectangle padding_x (y - padding_y) ((width : ℤ) - padding_x)
        (y + totalTextHeight line_heights + padding_y) ⟨0, 0, 0, 180⟩ txt
      drawLines font font_size t1 y lines
  convertRGB (alphaComposite base txt2)

/-- From the spec's words ("the block's native height plus a margin (20%
of font size)"): the buffer height the claim predicts, with a 20% margin
`int(font_size * 0.2)`. -/
def specTextBlockHeight (heights : List ℕ) (font_size : ℕ) : ℤ :=
  totalTextHeight heights + (2 * font_size / 10 : ℕ)

/-- An environment in which only the third ranked font path exists and
loads. -/
def thirdPathEnv : FontEnv :=
  ⟨fun p => p == "/usr/share/fonts/truetype/dejavu/DejaVuSans.ttf",
   fun p _ =>
     if p == "/usr/share/fonts/truetype/dejavu/DejaVuSans.ttf" then
       some crudeFont
     else none,
   fun _ _ => none⟩

/-! ### Facts about `pySplitWs` -/

theorem splitWsAux_clean (s : List Char) :
    ∀ acc : Str, (∀ c ∈ acc, c.isWhitespace = false) →
      ∀ w ∈ splitWsAux acc s, w ≠ [] ∧ ∀ c ∈ w, c.isWhitespace = false := by
  induction s with
  | nil =>
    intro acc hacc w hw
    by_cases h : acc = []
    · simp [splitWsAux, h] at hw
    · simp only [splitWsAux, if_neg h, List.mem_singleton] at hw
      subst hw
      refine ⟨by simpa using h, ?_⟩
      intro c hc
      exact hacc c (List.mem_reverse.mp hc)
  | cons c cs ih =>
    intro acc hacc w hw
    by_cases hws : c.isWhitespace
    · by_cases h : acc = []
      · simp only [splitWsAux, if_pos hws, if_pos h] at hw
        exact ih [] (by simp) w hw
      · simp only [splitWsAux, if_pos hws, if_neg h, List.mem_cons] at hw
        rcases hw with hw | hw
        · subst hw
          refine ⟨by simpa using h, ?_⟩
          intro d hd
          exact hacc d (List.mem_reverse.mp hd)
        · exact ih [] (by simp) w hw
    · simp only [splitWsAux, if_neg hws] at hw
      refine ih (c :: acc) ?_ w hw
      intro d hd
      rcases List.mem_cons.mp hd with hd | hd
      · subst hd; simpa using hws
      · exact hacc d hd

/-- Every word produced by `text.split()` is nonempty and contains no
whitespace. -/
theorem mem_pySplitWs (s : Str) (w : Str) (hw : w ∈ pySplitWs s) :
    w ≠ [] ∧ ∀ c ∈ w, c.isWhitespace = false :=
  splitWsAux_clean s [] (by simp) w hw

theorem splitWsAux_all_notWs (s : Str) :
    ∀ acc : Str, acc ≠ [] ∨ s ≠ [] → (∀ c ∈ s, c.isWhitespace = false) →
      splitWsAux acc s = [acc.reverse ++ s] := by
  induction s with
  | nil =>
    intro acc hne _
    have h : acc ≠ [] := by tauto
    simp [splitWsAux, h]
  | cons c cs ih =>
    intro acc _ hclean
    have hc : c.isWhitespace = false := hclean c (by simp)
    simp only [splitWsAux, hc, Bool.false_eq_true, if_false]
    rw [ih (c :: acc) (Or.inl (by simp)) (fun d hd => hclean d (List.mem_cons_of_mem _ hd))]
    simp

/-- Splitting a single clean word returns just that word. -/
theorem pySplitWs_single (w : Str) (hne : w ≠ [])
    (hclean : ∀ c ∈ w, c.isWhitespace = false) : pySplitWs w = [w] := by
  unfold pySplitWs
  rw [splitWsAux_all_notWs w [] (Or.inr hne) hclean]
  simp

theorem splitWsAux_append_ws (sep : Char) (hsep : sep.isWhitespace = true)
    (a : List Char) :
    ∀ acc b, splitWsAux acc (a ++ sep :: b) = splitWsAux acc a ++ splitWsAux [] b := by
  induction a with
  | nil =>
    intro acc b
    by_cases h : acc = []
    · simp [splitWsAux, h, hsep]
    · simp [splitWsAux, h, hsep]
  | cons c cs ih =>
    intro acc b
    by_cases hws : c.isWhitespace
    · by_cases h : acc = []
      · simp only [List.cons_append, splitWsAux, if_pos hws, if_pos h]
        exact ih [] b
      · simp only [List.cons_append, splitWsAux, if_pos hws, if_neg h, List.cons_append]
        exact congrArg (List.reverse acc :: ·) (ih [] b)
    · simp only [List.cons_append, splitWsAux, if_neg hws]
      exact ih (c :: acc) b

/-- Splitting across a whitespace separator splits cleanly. -/
theorem pySplitWs_append_ws (a b : Str) (sep : Char) (hsep : sep.isWhitespace = true) :
    pySplitWs (a ++ sep :: b) = pySplitWs a ++ pySplitWs b :=
  splitWsAux_append_ws sep hsep a [] b

/-- Appending a clean word after a space adds exactly that word to the
split. -/
theorem pySplitWs_append_word (a w : Str) (hne : w ≠ [])
    (hclean : ∀ c ∈ w, c.isWhitespace = false) :
    pySplitWs (a ++ ' ' :: w) = pySplitWs a ++ [w] := by
  rw [pySplitWs_append_ws a w ' ' (by decide), pySplitWs_single w hne hclean]

/-! ### Facts about the greedy wrap loop -/

theorem wrapLoop_ne_nil (fnt : Font) (maxW : ℕ) (ws : List Str) :
    ∀ current, wrapLoop fnt maxW current ws ≠ [] := by
  induction ws with
  | nil => intro current; simp [wrapLoop]
  | cons w ws ih =>
    intro current
    simp only [wrapLoop]
    split
    · exact ih _
    · simp

theorem joinSpaces_cons (l : Str) (ls : List Str) (h : ls ≠ []) :
    joinSpaces (l :: ls) = l ++ ' ' :: joinSpaces ls := by
  cases ls with
  | nil => exact absurd rfl h
  | cons l' ls' => rfl

theorem wrapLoop_flatten (fnt : Font) (maxW : ℕ) (ws : List Str)
    (hws : ∀ w ∈ ws, w ≠ [] ∧ ∀ c ∈ w, c.isWhitespace = false) :
    ∀ current, ((wrapLoop fnt maxW current ws).map pySplitWs).flatten =
      pySplitWs current ++ ws := by
  induction ws with
  | nil => intro current; simp [wrapLoop]
  | cons w ws ih =>
    intro current
    have hw := hws w (List.mem_cons_self w ws)
    have hws' := fun v hv => hws v (List.mem_cons_of_mem w hv)
    simp only [wrapLoop]
    split
    · rw [ih hws' (current ++ ' ' :: w), pySplitWs_append_word current w hw.1 hw.2]
      simp
    · rw [List.map_cons, List.flatten_cons, ih hws' w,
        pySplitWs_single w hw.1 hw.2]
      simp

theorem wrapLoop_lines_inv (fnt : Font) (maxW : ℕ) (ws : List Str)
    (hws : ∀ w ∈ ws, w ≠ [] ∧ ∀ c ∈ w, c.isWhitespace = false) :
    ∀ current, (fnt.meas current).1 ≤ maxW ∨ pySplitWs current = [current] →
      ∀ line ∈ wrapLoop fnt maxW current ws,
        (fnt.meas line).1 ≤ maxW ∨ pySplitWs line = [line] := by
  induction ws with
  | nil =>
    intro current hcur line hline
    simp only [wrapLoop, List.mem_singleton] at hline
    exact hline ▸ hcur
  | cons w ws ih =>
    intro current hcur line hline
    have hw := hws w (List.mem_cons_self w ws)
    have hws' := fun v hv => hws v (List.mem_cons_of_mem w hv)
    simp only [wrapLoop] at hline
    by_cases hc : (fnt.meas (current ++ ' ' :: w)).1 ≤ maxW
    · rw [if_pos hc] at hline
      exact ih hws' (current ++ ' ' :: w) (Or.inl hc) line hline
    · rw [if_neg hc] at hline
      rcases List.mem_cons.mp hline with h | h
      · exact h ▸ hcur
      · exact ih hws' w (Or.inr (pySplitWs_single w hw.1 hw.2)) line h

theorem wrapLoop_mem_self (fnt : Font) (maxW : ℕ)
    (hmono : ∀ s t : Str, (fnt.meas s).1 ≤ (fnt.meas (s ++ t)).1 ∧
      (fnt.meas t).1 ≤ (fnt.meas (s ++ t)).1)
    (current : Str) (hover : maxW < (fnt.meas current).1) (ws : List Str) :
    current ∈ wrapLoop fnt maxW current ws := by
  cases ws with
  | nil => simp [wrapLoop]
  | cons w ws =>
    have hcand : ¬ (fnt.meas (current ++ ' ' :: w)).1 ≤ maxW := by
      have := (hmono current (' ' :: w)).1
      omega
    simp only [wrapLoop, if_neg hcand]
    exact List.mem_cons_self _ _

theorem wrapLoop_mem_over (fnt : Font) (maxW : ℕ)
    (hmono : ∀ s t : Str, (fnt.meas s).1 ≤ (fnt.meas (s ++ t)).1 ∧
      (fnt.meas t).1 ≤ (fnt.meas (s ++ t)).1) (ws : List Str) :
    ∀ current, ∀ v ∈ ws, maxW < (fnt.meas v).1 →
      v ∈ wrapLoop fnt maxW current ws := by
  induction ws with
  | nil => intro current v hv; exact absurd hv (List.not_mem_nil v)
  | cons w ws ih =>
    intro current v hv hover
    rcases List.mem_cons.mp hv with h | h
    · subst h
      have hcand : ¬ (fnt.meas (current ++ ' ' :: v)).1 ≤ maxW := by
        have h2 := (hmono (current ++ [' ']) v).2
        rw [List.append_assoc] at h2
        simp only [List.singleton_append] at h2
        omega
      simp only [wrapLoop, if_neg hcand]
      exact List.mem_cons_of_mem _ (wrapLoop_mem_self fnt maxW hmono v hover ws)
    · simp only [wrapLoop]
      split
      · exact ih _ v h hover
      · exact List.mem_cons_of_mem _ (ih _ v h hover)

theorem pySplitWs_joinSpaces_wrapLoop (fnt : Font) (maxW : ℕ) (ws : List Str)
    (hws : ∀ w ∈ ws, w ≠ [] ∧ ∀ c ∈ w, c.isWhitespace = false) :
    ∀ current, pySplitWs (joinSpaces (wrapLoop fnt maxW current ws)) =
      pySplitWs current ++ ws := by
  induction ws with
  | nil => intro current; simp [wrapLoop, joinSpaces]
  | cons w ws ih =>
    intro current
    have hw := hws w (List.mem_cons_self w ws)
    have hws' := fun v hv => hws v (List.mem_cons_of_mem w hv)
    simp only [wrapLoop]
    split
    · rw [ih hws' (current ++ ' ' :: w), pySplitWs_append_word current w hw.1 hw.2]
      simp
    · rw [joinSpaces_cons current _ (wrapLoop_ne_nil fnt maxW ws w),
        pySplitWs_append_ws current _ ' ' (by decide), ih hws' w,
        pySplitWs_single w hw.1 hw.2]
      simp

/-- C5: word-wrap is idempotent: joining the wrapped lines back with single
spaces and wrapping the result again with the same font and max width
reproduces exactly the same sequence of lines. -/
theorem wrap_rewrap_idempotent (fnt : Font) (maxW : ℕ) (text : Str) :
    wrap_text_by_pixel fnt maxW (joinSpaces (wrap_text_by_pixel fnt maxW text)) =
      wrap_text_by_pixel fnt maxW text := by
  cases h : pySplitWs text with
  | nil =>
    simp only [wrap_text_by_pixel, h]
    rfl
  | cons w ws =>
    have hclean : ∀ v ∈ w :: ws, v ≠ [] ∧ ∀ c ∈ v, c.isWhitespace = false :=
      fun v hv => mem_pySplitWs text v (h ▸ hv)
    have hw := hclean w (List.mem_cons_self w ws)
    have hws' := fun v hv => hclean v (List.mem_cons_of_mem w hv)
    simp only [wrap_text_by_pixel, h]
    rw [pySplitWs_joinSpaces_wrapLoop fnt maxW ws hws' w,
      pySplitWs_single w hw.1 hw.2]
    rfl

/-- C2: every line produced by the greedy wrap that still contains at least
two words measures at most `maxW`; the words of the wrapped lines are
exactly the words of the paragraph, whole and in order (no mid-word
breaking); and a single word measuring beyond `maxW` is itself one of the
output lines (placed alone).  The hypothesis states that the font's
measured width is monotone under string extension, as pixel widths are. -/
theorem wrap_width_bound (fnt : Font) (maxW : ℕ) (text : Str)
    (hmono : ∀ s t : Str, (fnt.meas s).1 ≤ (fnt.meas (s ++ t)).1 ∧
      (fnt.meas t).1 ≤ (fnt.meas (s ++ t)).1) :
    (∀ line ∈ wrap_text_by_pixel fnt maxW text,
        2 ≤ (pySplitWs line).length → (fnt.meas line).1 ≤ maxW)
    ∧ ((wrap_text_by_pixel fnt maxW text).map pySplitWs).flatten = pySplitWs text
    ∧ ∀ v ∈ pySplitWs text, maxW < (fnt.meas v).1 →
        v ∈ wrap_text_by_pixel fnt maxW text := by
  cases h : pySplitWs text with
  | nil =>
    refine ⟨?_, ?_, ?_⟩
    · intro line hline
      simp only [wrap_text_by_pixel, h, List.mem_singleton] at hline
      subst hline
      intro hlen
      simp [pySplitWs, splitWsAux] at hlen
    · simp only [wrap_text_by_pixel, h]
      decide
    · intro v hv
      exact absurd hv (List.not_mem_nil v)
  | cons w ws =>
    have hclean : ∀ v ∈ w :: ws, v ≠ [] ∧ ∀ c ∈ v, c.isWhitespace = false :=
      fun v hv => mem_pySplitWs text v (h ▸ hv)
    have hw := hclean w (List.mem_cons_self w ws)
    have hws' := fun v hv => hclean v (List.mem_cons_of_mem w hv)
    refine ⟨?_, ?_, ?_⟩
    · intro line hline hlen
      simp only [wrap_text_by_pixel, h] at hline
      rcases wrapLoop_lines_inv fnt maxW ws hws' w
          (Or.inr (pySplitWs_single w hw.1 hw.2)) line hline with hok | hsingle
      · exact hok
      · rw [hsingle] at hlen
        simp at hlen
    · simp only [wrap_text_by_pixel, h]
      rw [wrapLoop_flatten fnt maxW ws hws' w, pySplitWs_single w hw.1 hw.2]
      rfl
    · intro v hv hover
      simp only [wrap_text_by_pixel, h]
      have hv' : v ∈ w :: ws := h ▸ hv
      rcases List.mem_cons.mp hv' with heq | hmem
      · subst heq
        exact wrapLoop_mem_self fnt maxW hmono v hover ws
      · exact wrapLoop_mem_over fnt maxW hmono ws w v hmem hover

/-- Witness for C2: with the crude backend (width `8 * length`), wrapping
"aaaa bb" at a maximum width of 20 px places the overlong word "aaaa"
(width 32 > 20) alone as one of the lines. -/
theorem wrap_width_bound_witness :
    ['a', 'a', 'a', 'a'] ∈
      wrap_text_by_pixel crudeFont 20 ['a', 'a', 'a', 'a', ' ', 'b', 'b'] :=
  (wrap_width_bound crudeFont 20 ['a', 'a', 'a', 'a', ' ', 'b', 'b']
    (fun s t => by
      simp only [crudeFont, crudeMeasure, List.length_append]
      omega)).2.2
    ['a', 'a', 'a', 'a'] (by decide) (by decide)

/-! ### Arithmetic bridges between integer division and floors/ceilings -/

theorem pyInt_of_nonneg (q : ℚ) (h : 0 ≤ q) : pyInt q = ⌊q⌋ := by
  simp [pyInt, not_lt.mpr h]

theorem natDiv_cast_eq_floor (a b : ℕ) :
    ((a / b : ℕ) : ℤ) = ⌊(a : ℚ) / (b : ℚ)⌋ := by
  rcases Nat.eq_zero_or_pos b with hb | hb
  · subst hb; simp
  · have h := Rat.floor_intCast_div_natCast (a : ℤ) b
    rw [show (((a : ℤ) : ℚ)) = (a : ℚ) by push_cast; ring] at h
    rw [h, Int.natCast_div]

theorem ceilDiv_eq_natCeil (a b : ℕ) (hb : 1 ≤ b) :
    (a + b - 1) / b = ⌈(a : ℚ) / (b : ℚ)⌉₊ := by
  rcases Nat.eq_zero_or_pos a with ha | ha
  · subst ha
    rw [Nat.div_eq_of_lt (by omega)]
    simp
  · have hdm := Nat.div_add_mod (a + b - 1) b
    have hmlt : (a + b - 1) % b < b := Nat.mod_lt _ (by omega)
    have hz1 : 1 ≤ (a + b - 1) / b :=
      (Nat.one_le_div_iff (by omega)).mpr (by omega)
    have hbq : (0 : ℚ) < (b : ℚ) := by exact_mod_cast hb
    have hcomm : ((a + b - 1) / b) * b = b * ((a + b - 1) / b) :=
      Nat.mul_comm _ _
    have hsub : ((a + b - 1) / b - 1) * b = ((a + b - 1) / b) * b - 1 * b :=
      Nat.sub_mul _ _ _
    have hle : a ≤ ((a + b - 1) / b) * b := by omega
    have hlt2 : ((a + b - 1) / b - 1) * b < a := by omega
    symm
    rw [Nat.ceil_eq_iff (by omega)]
    constructor
    · rw [lt_div_iff₀ hbq]
      exact_mod_cast hlt2
    · rw [div_le_iff₀ hbq]
      exact_mod_cast hle

/-- C6: the font size is `max(18, int(width * scale))`, hence at least the
18-pixel floor for every requested scale; the maximum text width is
`int(0.82 * width)`; width 1000 with scale 0.03 gives font size 30 and
maximum text width 820. -/
theorem font_size_spec (w : ℕ) (s : ℚ) :
    (fontSize w s : ℤ) = max 18 (pyInt ((w : ℚ) * s))
    ∧ 18 ≤ fontSize w s
    ∧ fontSize 1000 (3 / 100) = 30
    ∧ maxTextWidth 1000 = 820
    ∧ (maxTextWidth w : ℤ) = pyInt ((w : ℚ) * (82 / 100)) := by
  have hmax : (0 : ℤ) ≤ max 18 (pyInt ((w : ℚ) * s)) :=
    le_trans (by norm_num) (le_max_left _ _)
  refine ⟨?_, ?_, ?_, ?_, ?_⟩
  · exact Int.toNat_of_nonneg hmax
  · have h18 : (18 : ℤ) ≤ max 18 (pyInt ((w : ℚ) * s)) := le_max_left _ _
    exact Int.toNat_le_toNat h18
  · have hq : ((1000 : ℕ) : ℚ) * (3 / 100) = 30 := by norm_num
    rw [fontSize, hq, pyInt_of_nonneg 30 (by norm_num),
      show ⌊(30 : ℚ)⌋ = 30 by
        rw [show (30 : ℚ) = ((30 : ℤ) : ℚ) by norm_num]
        exact Int.floor_intCast 30]
    decide
  · decide
  · have h0 : (0 : ℚ) ≤ (w : ℚ) * (82 / 100) := by positivity
    rw [maxTextWidth, pyInt_of_nonneg _ h0]
    have hq : (w : ℚ) * (82 / 100) = ((82 * w : ℕ) : ℚ) / ((100 : ℕ) : ℚ) := by
      push_cast; ring
    rw [hq, ← natDiv_cast_eq_floor (82 * w) 100]

/-- C7: a paragraph with zero words wraps to exactly one empty line; the
empty input text yields a single empty line overall; and the block-height
computation on that single zero-width line gives exactly one line height,
without error. -/
theorem wrap_empty_yields_one_line (fnt : Font) (maxW : ℕ) (text : Str)
    (h : pySplitWs text = []) :
    wrap_text_by_pixel fnt maxW text = [[]]
    ∧ computeLines fnt maxW [] = [[]]
    ∧ totalTextHeight (lineHeights fnt (computeLines fnt maxW [])) =
        ((fnt.meas []).2 : ℤ) := by
  refine ⟨?_, rfl, ?_⟩
  · simp [wrap_text_by_pixel, h]
  · show totalTextHeight (lineHeights fnt [[]]) = ((fnt.meas []).2 : ℤ)
    simp [totalTextHeight, lineHeights]

/-- Witness for C7 at the whitespace-only paragraph `" "` with the crude
backend. -/
theorem wrap_empty_yields_one_line_witness :
    pySplitWs [' '] = [] ∧ wrap_text_by_pixel crudeFont 820 [' '] = [[]] :=
  ⟨by decide, (wrap_empty_yields_one_line crudeFont 820 [' '] (by decide)).1⟩

/-- C10: the sampled line height is clamped to at least 1 before the
ceiling division, so a sampled height of 0 (an empty first line) raises no
division error and yields upscale factor 14. -/
theorem upscale_factor_clamps (sample_h : ℕ) :
    upscaleFactor sample_h = upscaleFactor (max 1 sample_h)
    ∧ upscaleFactor 0 = 14
    ∧ 1 ≤ upscaleFactor sample_h := by
  refine ⟨?_, by decide, le_max_left _ _⟩
  unfold upscaleFactor
  rw [← max_assoc, max_self]

theorem drawCursorAfter_eq (fnt : Font) (font_size : ℕ) (lines : List Str) :
    ∀ y, drawCursorAfter fnt font_size y lines =
      y + ((lineHeights fnt lines).sum : ℤ) +
        lines.length * interLineGap font_size := by
  induction lines with
  | nil => intro y; simp [drawCursorAfter, lineHeights]
  | cons l ls ih =>
    intro y
    rw [drawCursorAfter, ih]
    simp only [lineHeights, List.map_cons, List.sum_cons, List.length_cons]
    push_cast
    ring

/-- C9 (amended): the computed block height is the sum of the measured
line heights plus a fixed 8 px per inter-line gap, independent of the font
size, while the drawing loop advances by `int(0.2 * font_size)` per gap;
for every block of AT LEAST TWO lines the two disagree whenever that
drawing gap is not 8. -/
theorem block_height_gap_mismatch (fnt : Font) (font_size : ℕ)
    (lines : List Str) (h2 : 2 ≤ lines.length)
    (hg : interLineGap font_size ≠ 8) :
    totalTextHeight (lineHeights fnt lines) =
      ((lineHeights fnt lines).sum : ℤ) + ((lines.length : ℤ) - 1) * 8
    ∧ totalTextHeight (lineHeights fnt lines) ≠
        drawCursorAfter fnt font_size 0 lines - interLineGap font_size := by
  have hlen : (lineHeights fnt lines).length = lines.length := by
    simp [lineHeights]
  refine ⟨by rw [totalTextHeight, hlen], ?_⟩
  rw [drawCursorAfter_eq fnt font_size lines 0, totalTextHeight, hlen]
  intro heq
  have hstep : ((lines.length : ℤ) - 1) * 8 =
      ((lines.length : ℤ) - 1) * (interLineGap font_size : ℤ) := by
    have : (lines.length : ℤ) * (interLineGap font_size : ℤ) -
        (interLineGap font_size : ℤ) =
        ((lines.length : ℤ) - 1) * (interLineGap font_size : ℤ) := by ring
    omega
  have hne : ((lines.length : ℤ) - 1) ≠ 0 := by
    have : (2 : ℤ) ≤ (lines.length : ℤ) := by exact_mod_cast h2
    omega
  have h8 : (8 : ℤ) = (interLineGap font_size : ℤ) :=
    mul_left_cancel₀ hne hstep
  exact hg (by exact_mod_cast h8.symm)

/-- Witness for C9 (amended): two crude-backend lines at font size 18,
whose drawing gap is 3 ≠ 8. -/
theorem block_height_gap_mismatch_witness :
    (2 ≤ ([['a'], ['b']] : List Str).length ∧ interLineGap 18 ≠ 8) ∧
    totalTextHeight (lineHeights crudeFont [['a'], ['b']]) ≠
      drawCursorAfter crudeFont 18 0 [['a'], ['b']] - interLineGap 18 :=
  ⟨⟨by decide, by decide⟩,
    (block_height_gap_mismatch crudeFont 18 [['a'], ['b']]
      (by decide) (by decide)).2⟩

/-- C9 counterexample: for a single wrapped line the computed block height
and the drawn vertical extent coincide even though the drawing gap
`int(0.2 * 18) = 3` is not 8 — so the claimed discrepancy does not hold
for every wrapped line list. -/
theorem block_height_gap_counterexample :
    totalTextHeight (lineHeights crudeFont [['h', 'i']]) =
      drawCursorAfter crudeFont 18 0 [['h', 'i']] - interLineGap 18
    ∧ interLineGap 18 ≠ 8 := by
  constructor
  · decide
  · decide

/-- C3: the upscale path is entered iff the sampled height of the first
wrapped line is strictly below 14 px; for positive sampled heights the
integer factor is exactly `⌈14 / sampled_height⌉` (necessarily ≥ 1);
sampled height 9 gives factor 2; and on the upscale path the block height
used for positioning is the native block height times the factor. -/
theorem upscale_path_spec (heights : List ℕ) (font_size : ℕ) :
    (renderPlan heights = RenderPlan.native ↔ MIN_PX ≤ sampleH heights)
    ∧ (sampleH heights < MIN_PX →
        renderPlan heights = RenderPlan.upscale (upscaleFactor (sampleH heights)))
    ∧ (∀ sh : ℕ, 1 ≤ sh → upscaleFactor sh = ⌈(14 : ℚ) / (sh : ℚ)⌉₊)
    ∧ upscaleFactor 9 = 2
    ∧ (sampleH heights < MIN_PX →
        positionedBlockHeight heights font_size =
          ((textBlockHeight heights font_size).toNat : ℤ) *
            upscaleFactor (sampleH heights)) := by
  refine ⟨?_, ?_, ?_, by decide, ?_⟩
  · constructor
    · intro h
      by_contra hlt
      push_neg at hlt
      rw [renderPlan, if_pos hlt] at h
      exact RenderPlan.noConfusion h
    · intro h
      rw [renderPlan, if_neg (by omega)]
  · intro hlt
    simp [renderPlan, hlt]
  · intro sh hsh
    have hmax : max 1 sh = sh := Nat.max_eq_right hsh
    have hge : 1 ≤ (MIN_PX + sh - 1) / sh :=
      (Nat.one_le_div_iff (by omega)).mpr (by simp [MIN_PX])
    rw [upscaleFactor, hmax, Nat.max_eq_right hge,
      ceilDiv_eq_natCeil MIN_PX sh hsh]
    norm_num [MIN_PX]
  · intro hlt
    rw [positionedBlockHeight, renderPlan, if_pos hlt]
    push_cast
    ring

/-- Witness for C3 at sampled height 9 and font size 18. -/
theorem upscale_path_spec_witness :
    (sampleH [9] < MIN_PX ∧ 1 ≤ (9 : ℕ)) ∧
    upscaleFactor 9 = ⌈(14 : ℚ) / ((9 : ℕ) : ℚ)⌉₊ ∧
    positionedBlockHeight [9] 18 =
      ((textBlockHeight [9] 18).toNat : ℤ) * upscaleFactor (sampleH [9]) :=
  ⟨⟨by decide, by decide⟩,
    (upscale_path_spec [9] 18).2.2.1 9 (by decide),
    (upscale_path_spec [9] 18).2.2.2.2 (by decide)⟩

/-- C1: for every decoded input image, every text (including the empty
string) and every scale, the overlay output has exactly the input's width
and height and is a fully-opaque 3-channel RGB image (every pixel carries
alpha 255). -/
theorem overlay_output_spec (env : FontEnv) (image : PILImage) (text : Str)
    (text_scale : ℚ) :
    (overlay_text_on_image env image text text_scale).width = image.width
    ∧ (overlay_text_on_image env image text text_scale).height = image.height
    ∧ (overlay_text_on_image env image text text_scale).mode = Mode.RGB
    ∧ ∀ x y, ((overlay_text_on_image env image text text_scale).px x y).a = 255 :=
  ⟨rfl, rfl, rfl, fun _ _ => rfl⟩

/-! ### C4: the upscale-path buffer -/

theorem totalTextHeight_nonneg (heights : List ℕ) (hne : heights ≠ []) :
    0 ≤ totalTextHeight heights := by
  have h1 : 1 ≤ heights.length := List.length_pos.mpr hne
  have h1' : (1 : ℤ) ≤ (heights.length : ℤ) := by exact_mod_cast h1
  have h2 : (0 : ℤ) ≤ (heights.sum : ℤ) := Int.natCast_nonneg _
  unfold totalTextHeight
  nlinarith

/-- C4 (amended): the temporary transparent buffer of the upscale path has
width equal to the base image width and height equal to the block's native
height plus a margin of 120% of the font size (`int(font_size * 1.2)` =
⌊1.2 × font_size⌋) — not 20%. -/
theorem text_block_buffer_spec (width font_size : ℕ) (heights : List ℕ)
    (hne : heights ≠ []) :
    (textBlockBuffer width heights font_size).width = width
    ∧ ((textBlockBuffer width heights font_size).height : ℤ) =
        totalTextHeight heights + ⌊(font_size : ℚ) * (12 / 10)⌋ := by
  refine ⟨rfl, ?_⟩
  have hmargin : ((textBlockMargin font_size : ℕ) : ℤ) =
      ⌊(font_size : ℚ) * (12 / 10)⌋ := by
    rw [textBlockMargin, natDiv_cast_eq_floor (12 * font_size) 10]
    congr 1
    push_cast
    ring
  have hnn : 0 ≤ textBlockHeight heights font_size := by
    have := totalTextHeight_nonneg heights hne
    have h2 : (0 : ℤ) ≤ (textBlockMargin font_size : ℤ) := Int.natCast_nonneg _
    unfold textBlockHeight
    omega
  show (((textBlockHeight heights font_size).toNat : ℕ) : ℤ) = _
  rw [Int.toNat_of_nonneg hnn, textBlockHeight, hmargin]

/-- Witness for C4 (amended) at one 12-px line and font size 18. -/
theorem text_block_buffer_spec_witness :
    ([12] : List ℕ) ≠ [] ∧
    ((textBlockBuffer 100 [12] 18).height : ℤ) =
      totalTextHeight [12] + ⌊((18 : ℕ) : ℚ) * (12 / 10)⌋ :=
  ⟨by decide, (text_block_buffer_spec 100 18 [12] (by decide)).2⟩

/-- C4 counterexample: at font size 18 with a single 12-px line the code
builds a buffer 12 + int(1.2 × 18) = 33 px high, while the claimed 20%
margin would give 12 + int(0.2 × 18) = 15 px. -/
theorem text_block_buffer_counterexample :
    ((textBlockBuffer 100 [12] 18).height : ℤ) ≠ specTextBlockHeight [12] 18
    ∧ (textBlockBuffer 100 [12] 18).height = 33
    ∧ specTextBlockHeight [12] 18 = 15 := by
  refine ⟨by decide, by decide, by decide⟩

/-! ### C8: font resolution -/

theorem tryFontPaths_skip (env : FontEnv) (size : ℕ) (l₁ : List String)
    (h : ∀ q ∈ l₁, env.pathExists q = true → env.loadTruetypePath q size = none) :
    ∀ l₂, tryFontPaths env size (l₁ ++ l₂) = tryFontPaths env size l₂ := by
  induction l₁ with
  | nil => intro l₂; rfl
  | cons q qs ih =>
    intro l₂
    have hq := h q (List.mem_cons_self q qs)
    have h' := fun p hp => h p (List.mem_cons_of_mem q hp)
    by_cases he : env.pathExists q
    · simp only [List.cons_append, tryFontPaths, if_pos he, hq he]
      exact ih h' l₂
    · simp only [List.cons_append, tryFontPaths, if_neg he]
      exact ih h' l₂

theorem tryFontNames_skip (env : FontEnv) (size : ℕ) (l₁ : List String)
    (h : ∀ m ∈ l₁, env.loadTruetypeName m size = none) :
    ∀ l₂, tryFontNames env size (l₁ ++ l₂) = tryFontNames env size l₂ := by
  induction l₁ with
  | nil => intro l₂; rfl
  | cons n ns ih =>
    intro l₂
    have hn := h n (List.mem_cons_self n ns)
    have h' := fun m hm => h m (List.mem_cons_of_mem n hm)
    simp only [List.cons_append, tryFontNames, hn]
    exact ih h' l₂

/-- C8: font resolution tries the ordered path list, then the ordered name
list, then the bitmap default: the first candidate that loads wins, every
individual load failure is silently skipped, and when every candidate
fails the resolution still returns the default bitmap font — it never
fails outright. -/
theorem resolve_font_spec (env : FontEnv) (size : ℕ) :
    (∀ l₁ p l₂ f, font_paths = l₁ ++ p :: l₂ →
      (∀ q ∈ l₁, env.pathExists q = true → env.loadTruetypePath q size = none) →
      env.pathExists p = true → env.loadTruetypePath p size = some f →
      resolveFont env size = f)
    ∧ (∀ l₁ n l₂ f, font_names = l₁ ++ n :: l₂ →
      (∀ q ∈ font_paths, env.pathExists q = true →
        env.loadTruetypePath q size = none) →
      (∀ m ∈ l₁, env.loadTruetypeName m size = none) →
      env.loadTruetypeName n size = some f →
      resolveFont env size = f)
    ∧ ((∀ q ∈ font_paths, env.pathExists q = true →
        env.loadTruetypePath q size = none) →
      (∀ m ∈ font_names, env.loadTruetypeName m size = none) →
      resolveFont env size = load_default) := by
  have hpaths_none : (∀ q ∈ font_paths, env.pathExists q = true →
      env.loadTruetypePath q size = none) →
      tryFontPaths env size font_paths = none := by
    intro h
    have := tryFontPaths_skip env size font_paths h []
    rwa [List.append_nil] at this
  have hnames_none : (∀ m ∈ font_names, env.loadTruetypeName m size = none) →
      tryFontNames env size font_names = none := by
    intro h
    have := tryFontNames_skip env size font_names h []
    rwa [List.append_nil] at this
  refine ⟨?_, ?_, ?_⟩
  · intro l₁ p l₂ f heq hskip hex hload
    rw [resolveFont, heq, tryFontPaths_skip env size l₁ hskip (p :: l₂)]
    simp [tryFontPaths, hex, hload]
  · intro l₁ n l₂ f heq hpaths hskip hload
    rw [resolveFont, hpaths_none hpaths, heq,
      tryFontNames_skip env size l₁ hskip (n :: l₂)]
    simp [tryFontNames, hload]
  · intro hpaths hnames
    rw [resolveFont, hpaths_none hpaths, hnames_none hnames]

/-- Witness for C8: with only the third ranked path available, resolution
skips the two earlier failures and returns exactly that font. -/
theorem resolve_font_spec_witness :
    thirdPathEnv.pathExists
        "/usr/share/fonts/truetype/dejavu/DejaVuSans.ttf" = true
    ∧ resolveFont thirdPathEnv 18 = crudeFont :=
  ⟨by decide,
    (resolve_font_spec thirdPathEnv 18).1
      ["/usr/share/fonts/truetype/dejavu/DejaVuSans-Bold.ttf",
       "/usr/share/fonts/truetype/liberation/LiberationSans-Bold.ttf"]
      "/usr/share/fonts/truetype/dejavu/DejaVuSans.ttf"
      ["/usr/share/fonts/truetype/freefont/FreeSans.ttf",
       "/usr/share/fonts/truetype/ubuntu/Ubuntu-B.ttf"]
      crudeFont rfl
      (by intro q hq hex; fin_cases hq <;> simp [thirdPathEnv] at hex)
      (by decide) rfl⟩

end QuoteGenerator
